import Mathlib

/-!
# auto-commit: commit orchestration core

A shallow embedding of the JavaScript sources

* `src/utils/commitValidator.js`        (taxonomy, `validateCommitMessage`, `formatCommitMessage`)
* `src/utils/commitMessageGenerator.js` (`categorizeFile`, `determineCommitType`,
  `findCommonComponent`, `createCommitDescription`, `generateCommitMessage`)
* `src/utils/gitUtils.js`               (`findAutoCommits`, `squashAutoCommits`)

JavaScript strings are embedded as Lean `String`s and every string primitive is
defined on the underlying character list.  Counters are natural numbers.  A
function that throws returns `Except`.  The Node `path` module and the
`simple-git` client are not part of the repository: both are parameters
(`PathLib`, `Vcs`) of the functions that call them, and each has an instance
(`posix`, `gitClient`) on which the functions are evaluated.
-/

set_option autoImplicit false
set_option maxRecDepth 20000

namespace AutoCommit

deriving instance DecidableEq for Except

/-! ## JavaScript string primitives -/

/-- JavaScript `s.startsWith(t)`. -/
def startsWith (s t : String) : Bool := t.data.isPrefixOf s.data

/-- JavaScript `s.endsWith(t)`. -/
def endsWith (s t : String) : Bool := t.data.isSuffixOf s.data

/-- Whether `t` occurs in `l` as a contiguous block. -/
def isInfixOf (t : List Char) : List Char → Bool
  | [] => t.isPrefixOf []
  | c :: cs => t.isPrefixOf (c :: cs) || isInfixOf t cs

/-- JavaScript `s.includes(t)`. -/
def includes (s t : String) : Bool := isInfixOf t.data s.data

/-- JavaScript `s.toLowerCase()`, on the ASCII letters (the only letters of the
patterns the sources search for). -/
def toLowerCase (s : String) : String := String.mk (s.data.map Char.toLower)

/-- JavaScript `s.split(/[\\/]/)`: the pieces of `s` between path separators;
the empty string gives one empty piece. -/
def splitPath (s : String) : List String :=
  (s.data.splitOnP (fun c => c == '/' || c == '\\')).map String.mk

/-- JavaScript `a || b` where `a` is a string or `undefined` (`none`): the empty
string and `undefined` are falsy. -/
def jsOr (a : Option String) (b : String) : String :=
  match a with
  | some s => if s = "" then b else s
  | none => b

/-- JavaScript `xs.filter(Boolean).pop()` on an array of strings: the last
non-empty string, `undefined` when there is none. -/
def lastTruthy (xs : List String) : Option String :=
  (xs.filter (fun s => s != "")).getLast?

/-! ## `commitValidator.js` -/

/-- The constant `COMMIT_TYPES`. -/
def COMMIT_TYPES : List String :=
  ["feat", "fix", "chore", "docs", "style", "refactor", "perf", "test", "build", "ci", "revert"]

/-- The regular-expression class `[\w-]`: ASCII letters, digits, `_` and `-`. -/
def isWordOrHyphen (c : Char) : Bool :=
  ('a' ≤ c && c ≤ 'z') || ('A' ≤ c && c ≤ 'Z') || ('0' ≤ c && c ≤ '9') || c == '_' || c == '-'

/-- The regular-expression class `\s` of JavaScript. -/
def isJsSpace (c : Char) : Bool :=
  let n := c.toNat
  n == 0x09 || n == 0x0A || n == 0x0B || n == 0x0C || n == 0x0D || n == 0x20 || n == 0xA0 ||
  n == 0x1680 || (0x2000 ≤ n && n ≤ 0x200A) || n == 0x2028 || n == 0x2029 || n == 0x202F ||
  n == 0x205F || n == 0x3000 || n == 0xFEFF

/-- The characters the regular-expression atom `.` refuses: the line terminators. -/
def isLineTerminator (c : Char) : Bool :=
  let n := c.toNat
  n == 0x0A || n == 0x0D || n == 0x2028 || n == 0x2029

/-- The list `l` without its prefix `p`, when `p` is a prefix of `l`. -/
def stripPrefix? : List Char → List Char → Option (List Char)
  | [], l => some l
  | _ :: _, [] => none
  | a :: p, b :: l => if a = b then stripPrefix? p l else none

/-- What follows the alternative `t` of the pattern: `\([\w-]+\):\s.+$`.  No
character of `[\w-]` is `)`, so the scope is the whole run of such characters. -/
def matchAfterType (rest : List Char) : Bool :=
  match rest with
  | '(' :: body =>
    let scope := body.takeWhile isWordOrHyphen
    match body.dropWhile isWordOrHyphen with
    | ')' :: ':' :: w :: d :: ds =>
      !scope.isEmpty && isJsSpace w && (d :: ds).all (fun c => !isLineTerminator c)
    | _ => false
  | _ => false

/-- The test of `pattern` in `validateCommitMessage`:
`/^(feat|fix|chore|docs|style|refactor|perf|test|build|ci|revert)\([\w-]+\):\s.+$/`. -/
def patternTest (message : String) : Bool :=
  COMMIT_TYPES.any fun t =>
    match stripPrefix? t.data message.data with
    | some rest => matchAfterType rest
    | none => false

/-- The text of the error `validateCommitMessage` throws. -/
def invalidFormatError : String :=
  "Invalid commit message format. Please use: type(product-name): title of changes\n" ++
  "Valid types: " ++ ", ".intercalate COMMIT_TYPES

/-- The function `validateCommitMessage`: `true`, or the thrown error. -/
def validateCommitMessage (message : String) : Except String Bool :=
  if !patternTest message then
    .error invalidFormatError
  else
    .ok true

/-- The function `formatCommitMessage`: the formatted message, or the thrown error. -/
def formatCommitMessage (type product title : String) : Except String String :=
  if !COMMIT_TYPES.contains type then
    .error ("Invalid commit type. Valid types: " ++ ", ".intercalate COMMIT_TYPES)
  else if product = "" || title = "" then
    .error "Product name and title are required"
  else
    .ok (type ++ "(" ++ product ++ "): " ++ title)

/-! ## The Node `path` module -/

/-- The functions of Node's `path` module that the sources call. -/
structure PathLib where
  /-- The function `path.dirname(p)`. -/
  dirname : String → String
  /-- The function `path.basename(p)`. -/
  basename : String → String
  /-- The function `path.basename(p, suffix)`. -/
  basenameExt : String → String → String
  /-- The function `path.extname(p)`. -/
  extname : String → String

/-- The backward scan of `path.posix.dirname`: from index `i` down to index 1,
the position of the first `/` met after a character that is not `/`. -/
def posixDirnameScan (cs : List Char) : Nat → Bool → Option Nat
  | 0, _ => none
  | i + 1, matchedSlash =>
    if cs[i + 1]? = some '/' then
      if !matchedSlash then some (i + 1) else posixDirnameScan cs i matchedSlash
    else posixDirnameScan cs i false

/-- Node's `path.posix.dirname`. -/
def posixDirname (path : String) : String :=
  let cs := path.data
  if cs.length = 0 then "." else
  let hasRoot := cs.head? = some '/'
  match posixDirnameScan cs (cs.length - 1) true with
  | none => if hasRoot then "/" else "."
  | some e => if hasRoot && e = 1 then "//" else String.mk (cs.take e)

/-- Node's `path.posix.basename` with one argument: the last component of the
path, trailing separators ignored. -/
def posixBasename (path : String) : String :=
  let trimmed := path.data.reverse.dropWhile (fun c => c == '/')
  String.mk (trimmed.takeWhile (fun c => c != '/')).reverse

/-- Node's `path.posix.extname`: the last component from its last dot on; empty
when there is no dot, when the dot opens the component, or for `..`. -/
def posixExtname (path : String) : String :=
  let base := (posixBasename path).data
  let ext := (base.reverse.takeWhile (fun c => c != '.')).reverse
  if !base.contains '.' then ""
  else if base.length - ext.length - 1 = 0 || base = ['.', '.'] then ""
  else String.mk ('.' :: ext)

/-- The variables of the loop of `path.posix.basename(path, suffix)`; `none`
stands for the index `-1`. -/
structure BasenameScan where
  /-- The variable `start`. -/
  start : Nat
  /-- The variable `end`. -/
  stop : Option Nat
  /-- The variable `matchedSlash`. -/
  matchedSlash : Bool
  /-- The variable `extIdx`. -/
  extIdx : Option Nat
  /-- The variable `firstNonSlashEnd`. -/
  firstNonSlashEnd : Option Nat

/-- The loop of `path.posix.basename(path, suffix)`, from index `i - 1` down to
index 0: it looks for the last component and, from its end, for the suffix. -/
def posixBasenameScan (path suffix : List Char) : Nat → BasenameScan → BasenameScan
  | 0, st => st
  | i + 1, st =>
    if path[i]? = some '/' then
      if !st.matchedSlash then { st with start := i + 1 }
      else posixBasenameScan path suffix i st
    else
      let st1 : BasenameScan :=
        if st.firstNonSlashEnd = none then
          { st with matchedSlash := false, firstNonSlashEnd := some (i + 1) }
        else st
      let st2 : BasenameScan :=
        match st1.extIdx with
        | some e =>
          if path[i]? = suffix[e]? then
            if e = 0 then { st1 with extIdx := none, stop := some i }
            else { st1 with extIdx := some (e - 1) }
          else { st1 with extIdx := none, stop := st1.firstNonSlashEnd }
        | none => st1
      posixBasenameScan path suffix i st2

/-- Node's `path.posix.basename` with a suffix. -/
def posixBasenameExt (path suffix : String) : String :=
  if suffix.length > 0 && suffix.length ≤ path.length then
    if suffix = path then ""
    else
      let st := posixBasenameScan path.data suffix.data path.length
        ⟨0, none, true, some (suffix.length - 1), none⟩
      let stop : Option Nat :=
        if some st.start = st.stop then st.firstNonSlashEnd
        else if st.stop = none then some path.length
        else st.stop
      match stop with
      | some e => String.mk ((path.data.take e).drop st.start)
      | none => String.mk ((path.data.take (path.length - 1)).drop st.start)
  else posixBasename path

/-- The POSIX flavour of Node's `path` module. -/
def posix : PathLib :=
  ⟨posixDirname, posixBasename, posixBasenameExt, posixExtname⟩

/-! ## `commitMessageGenerator.js` -/

/-- An entry of the table `FILE_CATEGORIES`. -/
structure FileCategory where
  /-- The field `extensions`. -/
  extensions : List String
  /-- The field `type`. -/
  type : String

/-- The table `FILE_CATEGORIES`, as `Object.entries` lists it: key and entry. -/
def FILE_CATEGORIES : List (String × FileCategory) :=
  [ ("js", ⟨[".js", ".jsx", ".ts", ".tsx"], "code"⟩),
    ("css", ⟨[".css", ".scss", ".less", ".sass"], "style"⟩),
    ("docs", ⟨[".md", ".txt", ".doc", ".docx"], "docs"⟩),
    ("test", ⟨[".test.js", ".spec.js", ".test.ts", ".spec.ts"], "test"⟩),
    ("config", ⟨[".json", ".yml", ".yaml", ".config.js", ".env"], "config"⟩) ]

/-- The function `categorizeFile`.  The loop over `Object.entries(FILE_CATEGORIES)`
returns `category`, the KEY of the first entry one of whose extensions ends the
path. -/
def categorizeFile (P : PathLib) (filePath : String) : String :=
  let _ext := toLowerCase (P.extname filePath)
  let fileName := toLowerCase (P.basename filePath)
  if includes fileName ".test." || includes fileName ".spec." then
    "test"
  else if includes fileName "readme" || includes fileName "documentation" then
    "docs"
  else if includes filePath "/test/" || includes filePath "\\test\\" ||
      includes filePath "/__tests__/" || includes filePath "\\__tests__\\" then
    "test"
  else if includes filePath "/docs/" || includes filePath "\\docs\\" then
    "docs"
  else
    match FILE_CATEGORIES.find? (fun e => e.2.extensions.any (fun x => endsWith filePath x)) with
    | some e => e.1
    | none => "other"

/-- The object `stats`: a number under each key; a key never written reads 0
(the sources read a dynamic key as `stats[category] || 0`). -/
abbrev Stats := String → Nat

/-- The object literal `stats` starts from: every counter 0. -/
def initialStats : Stats := fun _ => 0

/-- The assignment `stats[key] = (stats[key] || 0) + 1`. -/
def Stats.incr (stats : Stats) (key : String) : Stats :=
  fun k => if k = key then stats k + 1 else stats k

/-- The function `determineCommitType`. -/
def determineCommitType (stats : Stats) : String :=
  if stats "code" > 0 && stats "added" > stats "modified" then "feat"
  else if stats "code" > 0 then "fix"
  else if stats "test" > 0 then "test"
  else if stats "style" > 0 then "style"
  else if stats "docs" > 0 then "docs"
  else if stats "config" > 0 then "chore"
  else "chore"

/-- The prefix loop of `findCommonComponent`: `n` iterations are left, `i` is the
loop index, `acc` is `commonSegments`. -/
def commonSegmentsLoop (dirs : List (List String)) : Nat → Nat → List String → List String
  | 0, _, acc => acc
  | n + 1, i, acc =>
    let segment := (dirs.headD [])[i]?
    if dirs.all (fun d => d[i]? == segment) then
      commonSegmentsLoop dirs n (i + 1) (acc ++ segment.toList)
    else acc

/-- The bound `Math.min(...dirs.map(d => d.length))` of the loop. -/
def minLength (dirs : List (List String)) : Nat :=
  match dirs.map List.length with
  | [] => 0
  | n :: ns => ns.foldl min n

/-- The array `commonSegments` after the loop of `findCommonComponent`. -/
def commonSegments (dirs : List (List String)) : List String :=
  commonSegmentsLoop dirs (minLength dirs) 0 []

/-- The function `findCommonComponent`. -/
def findCommonComponent (P : PathLib) (changedFiles : List String) : String :=
  match changedFiles with
  | [] => "general"
  | [file] =>
    let dirname := P.dirname file
    let component := lastTruthy (splitPath dirname)
    jsOr (some (jsOr component (P.basenameExt file (P.extname file)))) "general"
  | _ =>
    let dirs := changedFiles.map (fun file => splitPath (P.dirname file))
    let lastCommon := lastTruthy (commonSegments dirs)
    jsOr lastCommon "general"

/-- The function `createCommitDescription`. -/
def createCommitDescription (stats : Stats) (changedFiles : List String) : String :=
  if stats "added" > 0 && stats "modified" == 0 && stats "deleted" == 0 then
    "add " ++ toString (stats "added") ++ " new file" ++ (if stats "added" > 1 then "s" else "")
  else if stats "modified" > 0 && stats "added" == 0 && stats "deleted" == 0 then
    "update " ++ toString (stats "modified") ++ " file" ++
      (if stats "modified" > 1 then "s" else "")
  else if stats "deleted" > 0 && stats "added" == 0 && stats "modified" == 0 then
    "remove " ++ toString (stats "deleted") ++ " file" ++ (if stats "deleted" > 1 then "s" else "")
  else
    "modify " ++ toString changedFiles.length ++ " files (" ++ toString (stats "added") ++
      " added, " ++ toString (stats "modified") ++ " updated, " ++ toString (stats "deleted") ++
      " deleted)"

/-- A record of the array `diffs`, as `getDiffForFiles` builds it. -/
structure Diff where
  /-- The field `file`. -/
  file : String
  /-- The field `binary`. -/
  binary : Bool
  /-- The field `insertions`. -/
  insertions : Nat
  /-- The field `deletions`. -/
  deletions : Nat
deriving DecidableEq, Repr

/-- The body of `diffs.forEach` in `generateCommitMessage`. -/
def countDiff (P : PathLib) (stats : Stats) (diff : Diff) : Stats :=
  let category := categorizeFile P diff.file
  let stats := stats.incr category
  if diff.binary then
    stats.incr "modified"
  else if diff.insertions > 0 && diff.deletions == 0 then
    stats.incr "added"
  else if diff.deletions > 0 && diff.insertions == 0 then
    stats.incr "deleted"
  else
    stats.incr "modified"

/-- The object `stats` once `diffs.forEach` has run. -/
def collectStats (P : PathLib) (diffs : List Diff) : Stats :=
  diffs.foldl (countDiff P) initialStats

/-- The function `generateCommitMessage`. -/
def generateCommitMessage (P : PathLib) (diffs : List Diff) : String :=
  if diffs.length = 0 then
    "chore: update files"
  else
    let changedFiles := diffs.map (fun diff => diff.file)
    let stats := collectStats P diffs
    let commitType := determineCommitType stats
    let component := findCommonComponent P changedFiles
    let description := createCommitDescription stats changedFiles
    commitType ++ "(" ++ component ++ "): " ++ description

/-! ## `config.js` and `gitUtils.js` -/

/-- The fields of the object `config` that `gitUtils.js` reads when squashing. -/
structure Config where
  /-- The field `autoCommitPrefix` (`WIP:` unless the environment sets it). -/
  autoCommitPrefix : String

/-- The default configuration: `AUTO_COMMIT_PREFIX` unset. -/
def defaultConfig : Config := ⟨"WIP:"⟩

/-- An entry of `repo.log()`: the fields the sources read. -/
structure Commit where
  /-- The field `hash`. -/
  hash : String
  /-- The field `message`. -/
  message : String
deriving DecidableEq, Repr

/-- A mutating command sent to the version-control client. -/
inductive GitOp where
  /-- The call `repo.reset([mode, rev])`. -/
  | reset (mode rev : String)
  /-- The call `repo.commit(message)`. -/
  | commit (message : String)
deriving DecidableEq, Repr

/-- The primitives of the `simple-git` client that squashing calls, over the
states `σ` of the repository.  A rejected promise is an `error`; a mutating
command returns the state it leaves, also when it fails. -/
structure Vcs (σ : Type) where
  /-- The primitive `repo.log()`: the entries `logs.all`, newest first. -/
  log : σ → Except String (List Commit)
  /-- The primitive `repo.reset([mode, rev])`. -/
  reset : σ → String → String → Except String Unit × σ
  /-- The primitive `repo.commit(message)`. -/
  commit : σ → String → Except String Unit × σ

/-- The object `repo`: the state of the repository and the mutating commands
sent so far, oldest first. -/
structure Repo (σ : Type) where
  /-- The state of the repository. -/
  state : σ
  /-- The mutating commands sent so far. -/
  ops : List GitOp
deriving DecidableEq, Repr

/-- The call `repo.log()`. -/
def Repo.log {σ : Type} (V : Vcs σ) (r : Repo σ) : Except String (List Commit) :=
  V.log r.state

/-- The call `repo.reset([mode, rev])`; the call is recorded. -/
def Repo.reset {σ : Type} (V : Vcs σ) (r : Repo σ) (mode rev : String) :
    Except String Unit × Repo σ :=
  ((V.reset r.state mode rev).1, ⟨(V.reset r.state mode rev).2, r.ops ++ [GitOp.reset mode rev]⟩)

/-- The call `repo.commit(message)`; the call is recorded. -/
def Repo.commit {σ : Type} (V : Vcs σ) (r : Repo σ) (message : String) :
    Except String Unit × Repo σ :=
  ((V.commit r.state message).1, ⟨(V.commit r.state message).2, r.ops ++ [GitOp.commit message]⟩)

/-- The function `findAutoCommits`. -/
def findAutoCommits {σ : Type} (V : Vcs σ) (config : Config) (r : Repo σ) : List Commit :=
  match r.log V with
  | .ok logs => logs.filter (fun commit => startsWith commit.message config.autoCommitPrefix)
  | .error _ => []

/-- The function `squashAutoCommits`: the returned boolean and the repository it
leaves. -/
def squashAutoCommits {σ : Type} (V : Vcs σ) (config : Config) (finalCommitMessage : String)
    (r : Repo σ) : Bool × Repo σ :=
  match validateCommitMessage finalCommitMessage with
  | .error _ => (false, r)
  | .ok _ =>
    let autoCommits := findAutoCommits V config r
    if autoCommits.length = 0 then (false, r)
    else
      match autoCommits[autoCommits.length - 1]? with
      | none => (false, r)
      | some oldestCommit =>
        match r.reset V "--soft" (oldestCommit.hash ++ "^") with
        | (.error _, r1) => (false, r1)
        | (.ok _, r1) =>
          match r1.commit V finalCommitMessage with
          | (.error _, r2) => (false, r2)
          | (.ok _, r2) => (true, r2)

/-! ## A git repository behind the client -/

/-- A commit of the repository: what `log` reports of it, the hashes of its
parents (first parent first) and the name of the tree it records. -/
structure GitCommit where
  /-- The hash of the commit. -/
  hash : String
  /-- The subject of the commit message, the `message` that `log` reports. -/
  subject : String
  /-- The hashes of the parents, first parent first. -/
  parents : List String
  /-- The name of the recorded tree; the empty string names the empty tree. -/
  tree : String
deriving DecidableEq, Repr

/-- A git repository: the commits reachable from `HEAD` in the order `git log`
lists them (newest first, a commit before its parents), the tree staged in the
index, and whether git can tell the committer's identity. -/
structure GitState where
  /-- The commits reachable from `HEAD`, newest first. -/
  commits : List GitCommit
  /-- The name of the tree staged in the index. -/
  index : String
  /-- Whether `user.name` and `user.email` are known. -/
  identity : Bool
deriving DecidableEq, Repr

/-- The characters git strips at the end of a line of a message. -/
def isGitSpace (c : Char) : Bool :=
  c == ' ' || c == '\t' || c == '\n' || c == '\x0b' || c == '\x0c' || c == '\r'

/-- The subject git logs for a message given with `-m`: the lines, trailing
blanks removed, of the first paragraph, joined by one space. -/
def loggedSubject (message : String) : String :=
  let lines := (message.data.splitOnP (fun c => c == '\n')).map
    (fun l => (l.reverse.dropWhile isGitSpace).reverse)
  let paragraph := (lines.dropWhile (fun l => l.isEmpty)).takeWhile (fun l => !l.isEmpty)
  String.mk (List.intercalate [' '] paragraph)

/-- The commits of a log that are reachable from the commits named `wanted`:
one pass suffices, since a commit is listed before its parents. -/
def reachableFrom : List GitCommit → List String → List GitCommit
  | [], _ => []
  | c :: cs, wanted =>
    if wanted.contains c.hash then c :: reachableFrom cs (wanted ++ c.parents)
    else reachableFrom cs wanted

/-- The hash a revision of the shape `h` or `h^` designates: the commit of hash
`h`, or its first parent. -/
def resolveRev (commits : List GitCommit) (rev : String) : Option String :=
  if endsWith rev "^" then
    match commits.find? (fun c => c.hash == String.mk rev.data.dropLast) with
    | some c => c.parents.head?
    | none => none
  else
    match commits.find? (fun c => c.hash == rev) with
    | some c => some c.hash
    | none => none

/-- The command `git log`: it fails on a branch without commits. -/
def gitLog (s : GitState) : Except String (List Commit) :=
  if s.commits.length = 0 then .error "fatal: your current branch does not have any commits yet"
  else .ok (s.commits.map fun c => ⟨c.hash, c.subject⟩)

/-- The command `git reset <mode> <rev>`: `HEAD` moves to the designated commit,
so the log keeps the commits reachable from it; the soft mode keeps the index,
the other modes reset it to the tree of that commit.  It fails on a revision
that designates no commit. -/
def gitReset (s : GitState) (mode rev : String) : Except String Unit × GitState :=
  match resolveRev s.commits rev with
  | none => (.error ("fatal: ambiguous argument " ++ rev ++ ": unknown revision"), s)
  | some h =>
    match reachableFrom s.commits [h] with
    | [] => (.error ("fatal: ambiguous argument " ++ rev ++ ": unknown revision"), s)
    | target :: older =>
      (.ok (), ⟨target :: older, if mode = "--soft" then s.index else target.tree, s.identity⟩)

/-- The command `git commit -m <message>`, where `newHash` is the hash of the
commit it would create.  It fails without an identity; when the index holds
the tree of `HEAD` there is nothing to commit: git exits with nothing on its
error stream, the client resolves, and no commit is created; it fails on a
message without subject; otherwise the new commit records the index on top
of `HEAD`. -/
def gitCommit (newHash : String) (s : GitState) (message : String) :
    Except String Unit × GitState :=
  let headTree := match s.commits with
    | [] => ""
    | head :: _ => head.tree
  if !s.identity then (.error "fatal: unable to auto-detect email address", s)
  else if s.index = headTree then (.ok (), s)
  else if loggedSubject message = "" then
    (.error "Aborting commit due to empty commit message.", s)
  else
    (.ok (), ⟨⟨newHash, loggedSubject message, (s.commits.head?.map fun c => c.hash).toList,
      s.index⟩ :: s.commits, s.index, s.identity⟩)

/-- The `simple-git` client on a git repository. -/
def gitClient (newHash : String) : Vcs GitState :=
  ⟨gitLog, gitReset, gitCommit newHash⟩

/-- A branch without merge: each commit, given by hash, subject and tree, has
the next one as its only parent. -/
def linearHistory : List (String × String × String) → List GitCommit
  | [] => []
  | [(h, m, t)] => [⟨h, m, [], t⟩]
  | (h, m, t) :: (h', m', t') :: rest =>
    ⟨h, m, [h'], t⟩ :: linearHistory ((h', m', t') :: rest)

/-- A clean repository on a branch without merge: the index holds the tree of
`HEAD`. -/
def cleanRepo (history : List (String × String × String)) : Repo GitState :=
  ⟨⟨linearHistory history, (history.head?.map fun c => c.2.2).getD "", true⟩, []⟩

/-! ## The wording of the specification -/

/-- Whether a commit carries the marker prefix. -/
def isAutoCommit (config : Config) (commit : Commit) : Bool :=
  startsWith commit.message config.autoCommitPrefix

/-- The number of commits of the maximal leading run of marker commits. -/
def leadingRun (config : Config) (history : List Commit) : Nat :=
  (history.takeWhile (isAutoCommit config)).length

/-- The entries of a log after the commit of hash `hash`: on a branch without
merge, the commits reachable from the parent of that commit. -/
def entriesAfter (history : List Commit) (hash : String) : List Commit :=
  (history.dropWhile (fun c => c.hash != hash)).drop 1

/-- A record classified added: not binary, insertions and no deletion. -/
def isAdded (d : Diff) : Bool := !d.binary && decide (d.insertions > 0) && d.deletions == 0

/-- A record classified deleted: not binary, deletions and no insertion. -/
def isDeleted (d : Diff) : Bool := !d.binary && decide (d.deletions > 0) && d.insertions == 0

/-- A record classified modified: binary, or neither added nor deleted. -/
def isModified (d : Diff) : Bool := d.binary || !(isAdded d || isDeleted d)

/-- The suffix `s`, present exactly when the count is greater than 1. -/
def pluralSuffix (n : Nat) : String := if n > 1 then "s" else ""

/-- The description the specification gives for `a` added, `m` modified and `d`
deleted records. -/
def specDescription (a m d : Nat) : String :=
  if m = 0 ∧ d = 0 then "add " ++ toString a ++ " new file" ++ pluralSuffix a
  else if a = 0 ∧ d = 0 then "update " ++ toString m ++ " file" ++ pluralSuffix m
  else if a = 0 ∧ m = 0 then "remove " ++ toString d ++ " file" ++ pluralSuffix d
  else "modify " ++ toString (a + m + d) ++ " files (" ++ toString a ++ " added, " ++
    toString m ++ " updated, " ++ toString d ++ " deleted)"

/-- A string without line terminator: what `.+$` can consume to the end. -/
def noLineTerminator (s : String) : Bool := s.data.all (fun c => !isLineTerminator c)

/-- The longest common leading sequence of the segment lists `dirs`: a prefix of
each of them that every common prefix is a prefix of. -/
def IsLongestCommonPrefix (l : List String) (dirs : List (List String)) : Prop :=
  (∀ d ∈ dirs, l <+: d) ∧ ∀ l', (∀ d ∈ dirs, l' <+: d) → l' <+: l

/-! ## Lemmas on the string primitives -/

theorem stripPrefix?_append (p l : List Char) : stripPrefix? p (p ++ l) = some l := by
  induction p with
  | nil => cases l <;> rfl
  | cons a p ih => simp [stripPrefix?, ih]

theorem takeWhile_append_stop (q : Char → Bool) (s : List Char) (c : Char) (r : List Char)
    (hs : ∀ x ∈ s, q x = true) (hc : q c = false) : (s ++ c :: r).takeWhile q = s := by
  induction s with
  | nil => simp [List.takeWhile, hc]
  | cons a s ih =>
    have ha : q a = true := hs a (List.mem_cons_self a s)
    have hs' : ∀ x ∈ s, q x = true := fun x hx => hs x (List.mem_cons_of_mem a hx)
    simp [List.takeWhile, ha, ih hs']

theorem dropWhile_append_stop (q : Char → Bool) (s : List Char) (c : Char) (r : List Char)
    (hs : ∀ x ∈ s, q x = true) (hc : q c = false) : (s ++ c :: r).dropWhile q = c :: r := by
  induction s with
  | nil => simp [List.dropWhile, hc]
  | cons a s ih =>
    have ha : q a = true := hs a (List.mem_cons_self a s)
    have hs' : ∀ x ∈ s, q x = true := fun x hx => hs x (List.mem_cons_of_mem a hx)
    simp [List.dropWhile, ha, ih hs']

/-- The pattern accepts `type(scope): description` when the type is of the
taxonomy, the scope is a non-empty run of `[\w-]` and the description is
non-empty without line terminator. -/
theorem patternTest_of_parts (t s d : String) (ht : t ∈ COMMIT_TYPES)
    (hs : s.data ≠ []) (hsw : ∀ c ∈ s.data, isWordOrHyphen c = true)
    (hd : d.data ≠ []) (hdl : ∀ c ∈ d.data, isLineTerminator c = false) :
    patternTest (t ++ "(" ++ s ++ "): " ++ d) = true := by
  unfold patternTest
  rw [List.any_eq_true]
  refine ⟨t, ht, ?_⟩
  have hdata : (t ++ "(" ++ s ++ "): " ++ d).data
      = t.data ++ ('(' :: (s.data ++ ')' :: (':' :: ' ' :: d.data))) := by
    simp [String.data_append]
  rw [hdata, stripPrefix?_append]
  obtain ⟨x, xs, hx⟩ : ∃ x xs, d.data = x :: xs := by
    cases h : d.data with
    | nil => exact absurd h hd
    | cons x xs => exact ⟨x, xs, rfl⟩
  have hne : s.data.isEmpty = false := by
    cases h : s.data with
    | nil => exact absurd h hs
    | cons _ _ => rfl
  have hall : ((x :: xs).all fun c => !isLineTerminator c) = true := by
    rw [List.all_eq_true]
    intro c hc
    rw [← hx] at hc
    simp [hdl c hc]
  simp only [matchAfterType]
  rw [takeWhile_append_stop isWordOrHyphen s.data ')' _ hsw (by decide),
    dropWhile_append_stop isWordOrHyphen s.data ')' _ hsw (by decide), hx]
  simp only [hne, hall]
  decide

/-! ## `formatCommitMessage` and `validateCommitMessage` -/

/-- C10: `formatCommitMessage(t, s, title)` fails with an error when `t` is not
one of the eleven taxonomy types or when `s` or `title` is empty; in every
other case it returns exactly `t + "(" + s + "): " + title`. -/
theorem formatCommitMessage_spec (t s title : String) :
    ((t ∉ COMMIT_TYPES ∨ s = "" ∨ title = "") →
      ∃ e, formatCommitMessage t s title = .error e) ∧
    (¬ (t ∉ COMMIT_TYPES ∨ s = "" ∨ title = "") →
      formatCommitMessage t s title = .ok (t ++ "(" ++ s ++ "): " ++ title)) := by
  constructor
  · intro h
    unfold formatCommitMessage
    by_cases ht : t ∈ COMMIT_TYPES
    · have hst : s = "" ∨ title = "" := h.resolve_left (not_not_intro ht)
      have hc : COMMIT_TYPES.contains t = true := by simpa using ht
      have hb : (decide (s = "") || decide (title = "")) = true := by simpa using hst
      simp only [hc, hb]
      exact ⟨_, rfl⟩
    · have hc : COMMIT_TYPES.contains t = false := by simpa using ht
      simp only [hc]
      exact ⟨_, rfl⟩
  · intro h
    have ht : t ∈ COMMIT_TYPES := by
      by_contra hn
      exact h (Or.inl hn)
    have hs : s ≠ "" := fun e => h (Or.inr (Or.inl e))
    have hti : title ≠ "" := fun e => h (Or.inr (Or.inr e))
    have hc : COMMIT_TYPES.contains t = true := by simpa using ht
    unfold formatCommitMessage
    simp only [hc]
    simp [hs, hti]

/-- Witness of C10: an unknown type and an empty scope are refused, and a
well-formed triple is formatted. -/
theorem formatCommitMessage_spec_witness :
    (∃ e, formatCommitMessage "feature" "core" "add parser" = .error e) ∧
    (∃ e, formatCommitMessage "feat" "" "add parser" = .error e) ∧
    formatCommitMessage "feat" "core" "add parser" = .ok "feat(core): add parser" :=
  ⟨(formatCommitMessage_spec "feature" "core" "add parser").1 (Or.inl (by decide)),
   (formatCommitMessage_spec "feat" "" "add parser").1 (Or.inr (Or.inl rfl)),
   (formatCommitMessage_spec "feat" "core" "add parser").2 (by decide)⟩

/-- C4, counterexample: `feat` is of the taxonomy, the scope `my scope` and the
title `x` are non-empty, `formatCommitMessage` returns `feat(my scope): x`, and
`validateCommitMessage` throws on it. -/
theorem validate_format_counterexample :
    "feat" ∈ COMMIT_TYPES ∧ "my scope" ≠ "" ∧ "x" ≠ "" ∧
    formatCommitMessage "feat" "my scope" "x" = .ok "feat(my scope): x" ∧
    validateCommitMessage "feat(my scope): x" = .error invalidFormatError := by
  decide

/-- C4, amended: for every type `t` of the taxonomy, every non-empty scope `s`
made of word characters and hyphens only, and every non-empty title without
line terminator, `validateCommitMessage(formatCommitMessage(t, s, title))`
returns `true`. -/
theorem validate_format_ok (t s title : String) (ht : t ∈ COMMIT_TYPES)
    (hs : s ≠ "") (hsw : ∀ c ∈ s.data, isWordOrHyphen c = true)
    (htitle : title ≠ "") (hl : ∀ c ∈ title.data, isLineTerminator c = false) :
    ∃ m, formatCommitMessage t s title = .ok m ∧ validateCommitMessage m = .ok true := by
  refine ⟨t ++ "(" ++ s ++ "): " ++ title, ?_, ?_⟩
  · have hc : COMMIT_TYPES.contains t = true := by simpa using ht
    unfold formatCommitMessage
    simp only [hc]
    simp [hs, htitle]
  · have hs' : s.data ≠ [] := fun h => hs (String.ext h)
    have ht' : title.data ≠ [] := fun h => htitle (String.ext h)
    unfold validateCommitMessage
    simp [patternTest_of_parts t s title ht hs' hsw ht' hl]

/-- Witness of the amended C4 at `fix`, `git-utils`, `handle empty log`. -/
theorem validate_format_ok_witness :
    ∃ m, formatCommitMessage "fix" "git-utils" "handle empty log" = .ok m ∧
      validateCommitMessage m = .ok true :=
  validate_format_ok "fix" "git-utils" "handle empty log" (by decide) (by decide) (by decide)
    (by decide) (by decide)

/-! ## The category counters -/

/-- C5, the code at the failing input: for the three insertions-only files
`src/a.js`, `src/b.js`, `src/c.js` the category returned by `categorizeFile` is
the table key `js`, the counter `code` stays 0 and the message is
`chore(src): add 3 new files`, not a `feat`. -/
theorem generateCommitMessage_three_code_files :
    categorizeFile posix "src/a.js" = "js" ∧
    collectStats posix
      [⟨"src/a.js", false, 4, 0⟩, ⟨"src/b.js", false, 2, 0⟩, ⟨"src/c.js", false, 7, 0⟩] "code" = 0 ∧
    generateCommitMessage posix
      [⟨"src/a.js", false, 4, 0⟩, ⟨"src/b.js", false, 2, 0⟩, ⟨"src/c.js", false, 7, 0⟩]
      = "chore(src): add 3 new files" := by
  decide

/-- C6, the code at the failing input: for the single record `src/a.js` the six
counters `code`, `style`, `test`, `docs`, `config`, `other` are all 0 (the file
is counted under the key `js`), so they sum to 0 and not to 1. -/
theorem collectStats_single_code_file :
    categorizeFile posix "src/a.js" = "js" ∧
    collectStats posix [⟨"src/a.js", false, 4, 0⟩] "js" = 1 ∧
    collectStats posix [⟨"src/a.js", false, 4, 0⟩] "code"
      + collectStats posix [⟨"src/a.js", false, 4, 0⟩] "style"
      + collectStats posix [⟨"src/a.js", false, 4, 0⟩] "test"
      + collectStats posix [⟨"src/a.js", false, 4, 0⟩] "docs"
      + collectStats posix [⟨"src/a.js", false, 4, 0⟩] "config"
      + collectStats posix [⟨"src/a.js", false, 4, 0⟩] "other" = 0 := by
  decide

/-! ## The change counters and the description -/

theorem categorizeFile_mem (P : PathLib) (f : String) :
    categorizeFile P f ∈ ["test", "docs", "js", "css", "config", "other"] := by
  unfold categorizeFile
  simp only
  split_ifs
  · decide
  · decide
  · decide
  · decide
  · split
    · rename_i e he
      have hmem := List.mem_of_find?_eq_some he
      simp only [FILE_CATEGORIES, List.mem_cons, List.mem_singleton, List.not_mem_nil,
        or_false] at hmem
      rcases hmem with rfl | rfl | rfl | rfl | rfl <;> decide
    · decide

theorem incr_incr_apply (stats : Stats) (cat key k : String) (h : k ≠ cat) :
    ((stats.incr cat).incr key) k = stats k + (if k = key then 1 else 0) := by
  unfold Stats.incr
  by_cases hk : k = key
  · subst hk
    simp [h]
  · simp [hk, h]

theorem categorizeFile_ne (P : PathLib) (f k : String)
    (hk : k ∉ ["test", "docs", "js", "css", "config", "other"]) : k ≠ categorizeFile P f :=
  fun h => hk (h ▸ categorizeFile_mem P f)

theorem countDiff_added (P : PathLib) (stats : Stats) (d : Diff) :
    countDiff P stats d "added" = stats "added" + (if isAdded d then 1 else 0) := by
  have hne := categorizeFile_ne P d.file "added" (by decide)
  unfold countDiff isAdded
  split_ifs <;> rw [incr_incr_apply _ _ _ _ hne] <;> simp_all

theorem countDiff_deleted (P : PathLib) (stats : Stats) (d : Diff) :
    countDiff P stats d "deleted" = stats "deleted" + (if isDeleted d then 1 else 0) := by
  have hne := categorizeFile_ne P d.file "deleted" (by decide)
  unfold countDiff isDeleted
  split_ifs <;> rw [incr_incr_apply _ _ _ _ hne] <;> simp_all

theorem countDiff_modified (P : PathLib) (stats : Stats) (d : Diff) :
    countDiff P stats d "modified" = stats "modified" + (if isModified d then 1 else 0) := by
  have hne := categorizeFile_ne P d.file "modified" (by decide)
  unfold countDiff isModified isAdded isDeleted
  split_ifs <;> rw [incr_incr_apply _ _ _ _ hne] <;> simp_all
  omega

theorem foldl_countDiff (P : PathLib) (key : String) (q : Diff → Bool)
    (hstep : ∀ stats d, countDiff P stats d key = stats key + (if q d then 1 else 0))
    (diffs : List Diff) (stats : Stats) :
    (diffs.foldl (countDiff P) stats) key = stats key + diffs.countP q := by
  induction diffs generalizing stats with
  | nil => simp
  | cons d ds ih =>
    rw [List.foldl_cons, ih, hstep, List.countP_cons]
    omega

theorem collectStats_added (P : PathLib) (diffs : List Diff) :
    collectStats P diffs "added" = diffs.countP isAdded := by
  unfold collectStats
  rw [foldl_countDiff P "added" isAdded (countDiff_added P)]
  simp [initialStats]

theorem collectStats_deleted (P : PathLib) (diffs : List Diff) :
    collectStats P diffs "deleted" = diffs.countP isDeleted := by
  unfold collectStats
  rw [foldl_countDiff P "deleted" isDeleted (countDiff_deleted P)]
  simp [initialStats]

theorem collectStats_modified (P : PathLib) (diffs : List Diff) :
    collectStats P diffs "modified" = diffs.countP isModified := by
  unfold collectStats
  rw [foldl_countDiff P "modified" isModified (countDiff_modified P)]
  simp [initialStats]

theorem countP_classes (diffs : List Diff) :
    diffs.countP isAdded + diffs.countP isModified + diffs.countP isDeleted = diffs.length := by
  induction diffs with
  | nil => rfl
  | cons d ds ih =>
    simp only [List.countP_cons, List.length_cons]
    have h : (if isAdded d = true then 1 else 0) + (if isModified d = true then 1 else 0)
        + (if isDeleted d = true then 1 else 0) = 1 := by
      unfold isModified isAdded isDeleted
      cases d.binary <;> by_cases hi : d.insertions = 0 <;> by_cases hd : d.deletions = 0 <;>
        simp [hi, hd, Nat.pos_iff_ne_zero]
    omega

theorem createCommitDescription_eq (stats : Stats) (files : List String)
    (hlen : stats "added" + stats "modified" + stats "deleted" = files.length)
    (hpos : 0 < files.length) :
    createCommitDescription stats files
      = specDescription (stats "added") (stats "modified") (stats "deleted") := by
  unfold createCommitDescription specDescription pluralSuffix
  generalize stats "added" = a at *
  generalize stats "modified" = m at *
  generalize stats "deleted" = d at *
  rw [← hlen]
  by_cases ha : a = 0 <;> by_cases hm : m = 0 <;> by_cases hd : d = 0 <;>
    simp [ha, hm, hd, Nat.pos_iff_ne_zero]
  all_goals omega

/-- C7: for a non-empty list of records, the numbers `A`, `M`, `D` of records
classified added, modified and deleted sum to the number of records, and the
message of `generateCommitMessage` ends with the description `add A new
file(s)` when `M = D = 0`, `update M file(s)` when `A = D = 0`, `remove D
file(s)` when `A = M = 0`, and `modify K files (A added, M updated, D deleted)`
with `K = A + M + D >= 2` otherwise, the suffix `s` being there exactly when
the count exceeds 1. -/
theorem generateCommitMessage_description (P : PathLib) (diffs : List Diff)
    (hne : diffs ≠ []) :
    diffs.countP isAdded + diffs.countP isModified + diffs.countP isDeleted = diffs.length ∧
    generateCommitMessage P diffs
      = determineCommitType (collectStats P diffs) ++ "(" ++
          findCommonComponent P (diffs.map fun diff => diff.file) ++ "): " ++
          specDescription (diffs.countP isAdded) (diffs.countP isModified)
            (diffs.countP isDeleted) ∧
    (¬ (diffs.countP isModified = 0 ∧ diffs.countP isDeleted = 0) →
      ¬ (diffs.countP isAdded = 0 ∧ diffs.countP isDeleted = 0) →
      ¬ (diffs.countP isAdded = 0 ∧ diffs.countP isModified = 0) →
      2 ≤ diffs.countP isAdded + diffs.countP isModified + diffs.countP isDeleted) := by
  have hsum := countP_classes diffs
  have hpos : 0 < diffs.length := List.length_pos.mpr hne
  refine ⟨hsum, ?_, ?_⟩
  · have hlen : diffs.length ≠ 0 := by omega
    unfold generateCommitMessage
    simp only [hlen, if_false]
    rw [createCommitDescription_eq _ _
      (by rw [collectStats_added, collectStats_modified, collectStats_deleted, hsum]; simp)
      (by simpa using hpos),
      collectStats_added, collectStats_modified, collectStats_deleted]
  · intro h1 h2 h3
    omega

/-- Witness of C7: one added, one binary and one deleted record give the mixed
description with `K = 3`. -/
theorem generateCommitMessage_description_witness :
    generateCommitMessage posix
      [⟨"lib/a.txt", false, 3, 0⟩, ⟨"lib/b.png", true, 0, 0⟩, ⟨"lib/c.txt", false, 0, 2⟩]
      = "docs(lib): modify 3 files (1 added, 1 updated, 1 deleted)" :=
  (generateCommitMessage_description posix
    [⟨"lib/a.txt", false, 3, 0⟩, ⟨"lib/b.png", true, 0, 0⟩, ⟨"lib/c.txt", false, 0, 2⟩]
    (by decide)).2.1.trans (by decide)

/-! ## Single test file -/

theorem isPrefixOf_map (f : Char → Char) (t l : List Char) (h : t.isPrefixOf l = true) :
    (t.map f).isPrefixOf (l.map f) = true := by
  induction t generalizing l with
  | nil => simp
  | cons a t ih =>
    cases l with
    | nil => simp at h
    | cons b l =>
      simp only [List.isPrefixOf, Bool.and_eq_true, beq_iff_eq] at h
      simp only [List.map_cons, List.isPrefixOf, Bool.and_eq_true, beq_iff_eq]
      exact ⟨congrArg f h.1, ih l h.2⟩

theorem isInfixOf_map (f : Char → Char) (t l : List Char) (h : isInfixOf t l = true) :
    isInfixOf (t.map f) (l.map f) = true := by
  induction l with
  | nil =>
    simp only [isInfixOf] at h
    simpa [isInfixOf] using isPrefixOf_map f t [] h
  | cons c cs ih =>
    simp only [isInfixOf, Bool.or_eq_true] at h
    simp only [List.map_cons, isInfixOf, Bool.or_eq_true]
    rcases h with h | h
    · exact Or.inl (by simpa using isPrefixOf_map f t (c :: cs) h)
    · exact Or.inr (ih h)

/-- A pattern that lower-casing leaves as it is and that occurs in a name still
occurs in the lower-cased name. -/
theorem includes_toLowerCase (s t : String) (ht : t.data.map Char.toLower = t.data)
    (h : includes s t = true) : includes (toLowerCase s) t = true := by
  unfold includes toLowerCase at *
  have := isInfixOf_map Char.toLower t.data s.data h
  rwa [ht] at this

theorem lastTruthy_ne_empty (xs : List String) (d : String) (h : lastTruthy xs = some d) :
    d ≠ "" := by
  unfold lastTruthy at h
  have hmem := List.mem_of_getLast?_eq_some h
  simpa using (List.mem_filter.mp hmem).2

/-- C9: for a single non-binary record with insertions and no deletion whose
file name contains `.test.` or `.spec.` and whose containing directory has
last non-empty segment `d`, `generateCommitMessage` returns exactly
`test(d): add 1 new file`. -/
theorem generateCommitMessage_single_test_file (P : PathLib) (r : Diff) (d : String)
    (hbin : r.binary = false) (hins : r.insertions > 0) (hdel : r.deletions = 0)
    (hname : includes (P.basename r.file) ".test." = true ∨
      includes (P.basename r.file) ".spec." = true)
    (hdir : lastTruthy (splitPath (P.dirname r.file)) = some d) :
    generateCommitMessage P [r] = "test(" ++ d ++ "): add 1 new file" := by
  have hcat : categorizeFile P r.file = "test" := by
    unfold categorizeFile
    rcases hname with h | h
    · simp [includes_toLowerCase _ ".test." (by decide) h]
    · simp [includes_toLowerCase _ ".spec." (by decide) h]
  have hd : d ≠ "" := lastTruthy_ne_empty _ d hdir
  have hi : r.insertions ≠ 0 := by omega
  have hstats : collectStats P [r] = (initialStats.incr "test").incr "added" := by
    simp [collectStats, countDiff, hcat, hbin, hdel, hi, Nat.pos_iff_ne_zero]
  have htype : determineCommitType ((initialStats.incr "test").incr "added") = "test" := by
    decide
  have hdesc : createCommitDescription ((initialStats.incr "test").incr "added") [r.file]
      = "add 1 new file" := by
    rfl
  have hscope : findCommonComponent P [r.file] = d := by
    simp [findCommonComponent, hdir, jsOr, hd]
  unfold generateCommitMessage
  simp only [List.length_singleton, one_ne_zero, if_false, List.map_cons, List.map_nil]
  rw [hstats, htype, hdesc, hscope]
  apply String.ext
  simp [String.data_append]

/-- Witness of C9: `src/a.test.js` with 5 insertions and no deletion gives
`test(src): add 1 new file`. -/
theorem generateCommitMessage_single_test_file_witness :
    generateCommitMessage posix [⟨"src/a.test.js", false, 5, 0⟩] = "test(src): add 1 new file" :=
  generateCommitMessage_single_test_file posix ⟨"src/a.test.js", false, 5, 0⟩ "src"
    rfl (by decide) rfl (Or.inl (by decide)) (by decide)

/-! ## Grammar conformance of the generated message -/

theorem noLineTerminator_append (a b : String) :
    noLineTerminator (a ++ b) = (noLineTerminator a && noLineTerminator b) := by
  simp [noLineTerminator, String.data_append, List.all_append]

theorem digitChar_noLineTerminator (n : Nat) (h : n < 10) :
    isLineTerminator (Nat.digitChar n) = false := by
  interval_cases n <;> decide

theorem toDigitsCore_noLineTerminator (fuel n : Nat) (ds : List Char)
    (hds : ∀ c ∈ ds, isLineTerminator c = false) :
    ∀ c ∈ Nat.toDigitsCore 10 fuel n ds, isLineTerminator c = false := by
  induction fuel generalizing n ds with
  | zero => simpa [Nat.toDigitsCore] using hds
  | succ fuel ih =>
    have hcons : ∀ c ∈ Nat.digitChar (n % 10) :: ds, isLineTerminator c = false := by
      intro c hc
      rcases List.mem_cons.mp hc with rfl | hc
      · exact digitChar_noLineTerminator _ (Nat.mod_lt _ (by decide))
      · exact hds c hc
    unfold Nat.toDigitsCore
    simp only
    split_ifs
    · exact hcons
    · exact ih _ _ hcons

theorem noLineTerminator_toString (n : Nat) : noLineTerminator (toString n) = true := by
  unfold noLineTerminator
  rw [List.all_eq_true]
  intro c hc
  have hc' : c ∈ Nat.toDigitsCore 10 (n + 1) n [] := by
    simpa [toString, Nat.repr, Nat.toDigits, List.asString] using hc
  simp [toDigitsCore_noLineTerminator (n + 1) n [] (by simp) c hc']

theorem createCommitDescription_noLineTerminator (stats : Stats) (files : List String) :
    noLineTerminator (createCommitDescription stats files) = true := by
  have hs : noLineTerminator "s" = true := by decide
  have he : noLineTerminator "" = true := by decide
  unfold createCommitDescription
  split_ifs <;>
    simp [noLineTerminator_append, noLineTerminator_toString, hs, he] <;> decide

theorem createCommitDescription_ne_empty (stats : Stats) (files : List String) :
    (createCommitDescription stats files).data ≠ [] := by
  unfold createCommitDescription
  split_ifs <;> simp [String.data_append]

theorem determineCommitType_mem (stats : Stats) : determineCommitType stats ∈ COMMIT_TYPES := by
  unfold determineCommitType
  split_ifs <;> decide

theorem jsOr_ne_empty (a : Option String) (b : String) (hb : b ≠ "") : jsOr a b ≠ "" := by
  unfold jsOr
  split
  · split_ifs with h
    · exact hb
    · exact h
  · exact hb

theorem findCommonComponent_ne_empty (P : PathLib) (files : List String) :
    findCommonComponent P files ≠ "" := by
  unfold findCommonComponent
  split
  · decide
  · exact jsOr_ne_empty _ _ (by decide)
  · exact jsOr_ne_empty _ _ (by decide)

/-- C3, counterexample: for the empty list `generateCommitMessage` returns
`chore: update files`, which has no scope, and for the single top-level file
`README.md` it returns `docs(.): add 1 new file`, whose scope is a dot;
`validateCommitMessage` throws on both. -/
theorem generateCommitMessage_invalid_counterexample :
    generateCommitMessage posix [] = "chore: update files" ∧
    validateCommitMessage (generateCommitMessage posix []) = .error invalidFormatError ∧
    generateCommitMessage posix [⟨"README.md", false, 3, 0⟩] = "docs(.): add 1 new file" ∧
    validateCommitMessage (generateCommitMessage posix [⟨"README.md", false, 3, 0⟩])
      = .error invalidFormatError := by
  decide

/-- C3, amended: for every non-empty list of change records whose scope, the
value of `findCommonComponent` on the changed files, is made of word
characters and hyphens only, `validateCommitMessage` accepts the message
returned by `generateCommitMessage`. -/
theorem generateCommitMessage_valid (P : PathLib) (diffs : List Diff) (hne : diffs ≠ [])
    (hscope : ∀ c ∈ (findCommonComponent P (diffs.map fun diff => diff.file)).data,
      isWordOrHyphen c = true) :
    validateCommitMessage (generateCommitMessage P diffs) = .ok true := by
  have hlen : diffs.length ≠ 0 := fun h => hne (List.length_eq_zero.mp h)
  have hsne : (findCommonComponent P (diffs.map fun diff => diff.file)).data ≠ [] :=
    fun h => findCommonComponent_ne_empty P _ (String.ext h)
  have hdl : ∀ c ∈ (createCommitDescription (collectStats P diffs)
      (diffs.map fun diff => diff.file)).data, isLineTerminator c = false := by
    have h := createCommitDescription_noLineTerminator (collectStats P diffs)
      (diffs.map fun diff => diff.file)
    unfold noLineTerminator at h
    rw [List.all_eq_true] at h
    intro c hc
    simpa using h c hc
  have hmatch := patternTest_of_parts _ _ _ (determineCommitType_mem (collectStats P diffs))
    hsne hscope (createCommitDescription_ne_empty _ _) hdl
  unfold validateCommitMessage generateCommitMessage
  simp only [hlen, if_false]
  simp [hmatch]

/-- Witness of the amended C3: two files under `src/utils`. -/
theorem generateCommitMessage_valid_witness :
    validateCommitMessage (generateCommitMessage posix
      [⟨"src/utils/a.js", false, 3, 0⟩, ⟨"src/utils/b.css", false, 1, 4⟩]) = .ok true :=
  generateCommitMessage_valid posix
    [⟨"src/utils/a.js", false, 3, 0⟩, ⟨"src/utils/b.css", false, 1, 4⟩] (by decide) (by decide)

/-! ## The scope of several files -/

theorem foldl_min_le (ns : List Nat) (n : Nat) :
    ns.foldl min n ≤ n ∧ ∀ x ∈ ns, ns.foldl min n ≤ x := by
  induction ns generalizing n with
  | nil => simp
  | cons m ns ih =>
    obtain ⟨h1, h2⟩ := ih (min n m)
    refine ⟨le_trans h1 (Nat.min_le_left n m), ?_⟩
    intro x hx
    rcases List.mem_cons.mp hx with rfl | hx
    · exact le_trans h1 (Nat.min_le_right n x)
    · exact h2 x hx

theorem foldl_min_mem (ns : List Nat) (n : Nat) : ns.foldl min n ∈ n :: ns := by
  induction ns generalizing n with
  | nil => simp
  | cons m ns ih =>
    have h := ih (min n m)
    rcases List.mem_cons.mp h with h | h
    · rw [List.foldl_cons, h]
      rcases Nat.le_total n m with hnm | hnm
      · rw [Nat.min_eq_left hnm]
        exact List.mem_cons_self _ _
      · rw [Nat.min_eq_right hnm]
        exact List.mem_cons_of_mem _ (List.mem_cons_self _ _)
    · exact List.mem_cons_of_mem _ (List.mem_cons_of_mem _ h)

theorem minLength_le (dirs : List (List String)) (d : List String) (hd : d ∈ dirs) :
    minLength dirs ≤ d.length := by
  unfold minLength
  cases dirs with
  | nil => simp at hd
  | cons e es =>
    simp only [List.map_cons]
    obtain ⟨h1, h2⟩ := foldl_min_le (es.map List.length) e.length
    rcases List.mem_cons.mp hd with rfl | hd
    · exact h1
    · exact h2 _ (List.mem_map_of_mem _ hd)

theorem minLength_attained (dirs : List (List String)) (hne : dirs ≠ []) :
    ∃ d ∈ dirs, d.length = minLength dirs := by
  unfold minLength
  cases dirs with
  | nil => exact absurd rfl hne
  | cons e es =>
    simp only [List.map_cons]
    have h := foldl_min_mem (es.map List.length) e.length
    rcases List.mem_cons.mp h with h | h
    · exact ⟨e, List.mem_cons_self _ _, h.symm⟩
    · obtain ⟨d, hd, hlen⟩ := List.mem_map.mp h
      exact ⟨d, List.mem_cons_of_mem _ hd, hlen⟩

/-- The loop stops at an index `j`: its result is the first `j` segments of
every directory, and either the bound is reached or the directories differ at
index `j`. -/
theorem commonSegmentsLoop_spec (dirs : List (List String)) (n i : Nat) (acc : List String)
    (hacc : ∀ d ∈ dirs, d.take i = acc) :
    ∃ j, j ≤ i + n ∧
      (∀ d ∈ dirs, d.take j = commonSegmentsLoop dirs n i acc) ∧
      (j = i + n ∨ ¬ ∀ d ∈ dirs, d[j]? = (dirs.headD [])[j]?) := by
  induction n generalizing i acc with
  | zero => exact ⟨i, le_refl _, by simpa [commonSegmentsLoop] using hacc, Or.inl rfl⟩
  | succ n ih =>
    unfold commonSegmentsLoop
    simp only
    split_ifs with hall
    · rw [List.all_eq_true] at hall
      have hacc' : ∀ d ∈ dirs, d.take (i + 1) = acc ++ ((dirs.headD [])[i]?).toList := by
        intro d hd
        have := hall d hd
        rw [List.take_succ, hacc d hd]
        simp only [beq_iff_eq] at this
        rw [this]
      obtain ⟨j, hj, hpre, hstop⟩ := ih (i + 1) _ hacc'
      exact ⟨j, by omega, hpre, hstop.imp (fun h => by omega) id⟩
    · refine ⟨i, by omega, hacc, Or.inr ?_⟩
      intro h
      apply hall
      rw [List.all_eq_true]
      intro d hd
      simpa using h d hd

theorem commonSegments_longest (dirs : List (List String)) (hne : dirs ≠ []) :
    IsLongestCommonPrefix (commonSegments dirs) dirs := by
  obtain ⟨j, hj, hpre, hstop⟩ :=
    commonSegmentsLoop_spec dirs (minLength dirs) 0 [] (by simp)
  have hhead : dirs.headD [] ∈ dirs := by
    cases dirs with
    | nil => exact absurd rfl hne
    | cons e es => simp
  unfold commonSegments
  refine ⟨fun d hd => ?_, fun l hl => ?_⟩
  · rw [← hpre d hd]
    exact List.take_prefix j d
  · have hlen : l.length ≤ j := by
      rcases hstop with hbound | hdiff
      · obtain ⟨d, hd, hdlen⟩ := minLength_attained dirs hne
        have := (hl d hd).length_le
        omega
      · by_contra hlt
        apply hdiff
        intro d hd
        have hget : ∀ e ∈ dirs, e[j]? = l[j]? := by
          intro e he
          obtain ⟨t, rfl⟩ := hl e he
          rw [List.getElem?_append_left (by omega)]
        rw [hget d hd, hget _ hhead]
    rw [← hpre _ hhead]
    have hl' := List.prefix_iff_eq_take.mp (hl _ hhead)
    apply List.prefix_iff_eq_take.mpr
    rw [List.take_take, Nat.min_eq_left hlen]
    exact hl'

theorem jsOr_lastTruthy (xs : List String) (b : String) :
    jsOr (lastTruthy xs) b = (lastTruthy xs).getD b := by
  unfold jsOr
  cases h : lastTruthy xs with
  | none => rfl
  | some s => simp [lastTruthy_ne_empty xs s h]

/-- C8: for a change set of two or more files, the scope in the message of
`generateCommitMessage` is the last non-empty segment of the longest common
leading sequence of the files' directory-path segments, and `general` when
that sequence has no non-empty segment. -/
theorem generateCommitMessage_scope_multi (P : PathLib) (diffs : List Diff)
    (hlen : 2 ≤ diffs.length) :
    ∃ common : List String,
      IsLongestCommonPrefix common
        (diffs.map fun diff => splitPath (P.dirname diff.file)) ∧
      generateCommitMessage P diffs
        = determineCommitType (collectStats P diffs) ++ "(" ++
            (lastTruthy common).getD "general" ++ "): " ++
            createCommitDescription (collectStats P diffs) (diffs.map fun diff => diff.file) := by
  refine ⟨commonSegments (diffs.map fun diff => splitPath (P.dirname diff.file)), ?_, ?_⟩
  · apply commonSegments_longest
    intro h
    rw [List.map_eq_nil_iff.mp h] at hlen
    simp at hlen
  · have hscope : findCommonComponent P (diffs.map fun diff => diff.file)
        = (lastTruthy (commonSegments
            (diffs.map fun diff => splitPath (P.dirname diff.file)))).getD "general" := by
      match diffs, hlen with
      | a :: b :: rest, _ =>
        simp only [List.map_cons, findCommonComponent]
        rw [jsOr_lastTruthy]
        simp [List.map_map, Function.comp_def]
    have hne : diffs.length ≠ 0 := by omega
    unfold generateCommitMessage
    simp only [hne, if_false]
    rw [hscope]

/-- Witness of C8: `src/utils/a.js` and `src/utils/b.js` give the scope `utils`. -/
theorem generateCommitMessage_scope_multi_witness :
    generateCommitMessage posix
        [⟨"src/utils/a.js", false, 2, 1⟩, ⟨"src/utils/b.js", false, 0, 3⟩]
      = "chore(utils): modify 2 files (0 added, 1 updated, 1 deleted)" := by
  obtain ⟨common, ⟨hpre, hmax⟩, hmsg⟩ := generateCommitMessage_scope_multi posix
    [⟨"src/utils/a.js", false, 2, 1⟩, ⟨"src/utils/b.js", false, 0, 3⟩] (by decide)
  have hdirs : (([⟨"src/utils/a.js", false, 2, 1⟩, ⟨"src/utils/b.js", false, 0, 3⟩] :
      List Diff).map fun diff => splitPath (posix.dirname diff.file))
      = [["src", "utils"], ["src", "utils"]] := by decide
  rw [hdirs] at hpre hmax
  have h1 : common <+: ["src", "utils"] := hpre _ (List.mem_cons_self _ _)
  have h2 : ["src", "utils"] <+: common := by
    apply hmax
    intro d hd
    simp only [List.mem_cons, List.mem_singleton, List.not_mem_nil, or_false, or_self] at hd
    rw [hd]
  have hcommon : common = ["src", "utils"] := h1.eq_of_length_le h2.length_le
  rw [hmsg, hcommon]
  decide

/-! ## `squashAutoCommits`: the failing paths -/

/-- C2: `squashAutoCommits` returns `false` and leaves the repository as it is,
no reset and no commit issued, whenever `validateCommitMessage` throws on the
final message, and whenever no commit of the history starts with the marker
prefix. -/
theorem squashAutoCommits_fails_fast {σ : Type} (V : Vcs σ) (config : Config) (msg : String)
    (r : Repo σ) :
    ((∃ e, validateCommitMessage msg = .error e) →
      squashAutoCommits V config msg r = (false, r)) ∧
    ((∀ logs, V.log r.state = .ok logs →
        ∀ c ∈ logs, startsWith c.message config.autoCommitPrefix = false) →
      squashAutoCommits V config msg r = (false, r)) := by
  constructor
  · rintro ⟨e, he⟩
    unfold squashAutoCommits
    rw [he]
  · intro h
    have hnone : findAutoCommits V config r = [] := by
      unfold findAutoCommits Repo.log
      cases hlog : V.log r.state with
      | error e => rfl
      | ok logs =>
        simp only
        rw [List.filter_eq_nil_iff]
        intro c hc
        simp [h logs hlog c hc]
    unfold squashAutoCommits
    cases validateCommitMessage msg with
    | error e => rfl
    | ok b => simp [hnone]

/-- Witness of C2: a message without scope on a history with a marker commit,
and a valid message on a history without marker commit. -/
theorem squashAutoCommits_fails_fast_witness :
    squashAutoCommits (gitClient "n") defaultConfig "chore: update files"
        (cleanRepo [("a", "WIP: a", "t1"), ("b", "init", "t0")])
      = (false, cleanRepo [("a", "WIP: a", "t1"), ("b", "init", "t0")]) ∧
    squashAutoCommits (gitClient "n") defaultConfig "feat(core): x"
        (cleanRepo [("a", "first", "t1"), ("b", "init", "t0")])
      = (false, cleanRepo [("a", "first", "t1"), ("b", "init", "t0")]) :=
  ⟨(squashAutoCommits_fails_fast (gitClient "n") defaultConfig "chore: update files"
      (cleanRepo [("a", "WIP: a", "t1"), ("b", "init", "t0")])).1
      ⟨invalidFormatError, by decide⟩,
   (squashAutoCommits_fails_fast (gitClient "n") defaultConfig "feat(core): x"
      (cleanRepo [("a", "first", "t1"), ("b", "init", "t0")])).2
      (by
        intro logs hlogs
        have hl : logs = [⟨"a", "first"⟩, ⟨"b", "init"⟩] := by
          have h : (gitClient "n").log
              (cleanRepo [("a", "first", "t1"), ("b", "init", "t0")]).state
              = .ok [⟨"a", "first"⟩, ⟨"b", "init"⟩] := by decide
          rw [h] at hlogs
          cases hlogs
          rfl
        rw [hl]
        decide)⟩

/-! ## `squashAutoCommits`: the successful path -/

theorem entriesAfter_append (init : List Commit) (anchor : Commit) (rest : List Commit)
    (h : ∀ c ∈ init, c.hash ≠ anchor.hash) :
    entriesAfter (init ++ anchor :: rest) anchor.hash = rest := by
  unfold entriesAfter
  induction init with
  | nil => simp [List.dropWhile]
  | cons c cs ih =>
    have hb : (c.hash != anchor.hash) = true := by simpa using h c (List.mem_cons_self _ _)
    rw [List.cons_append, List.dropWhile_cons, if_pos hb]
    exact ih (fun x hx => h x (List.mem_cons_of_mem _ hx))

/-- A history whose leading run of marker commits is not empty and does not
exhaust it splits into the run but its last commit, that last commit (the
anchor), its parent, and the older commits. -/
theorem history_split (config : Config) (history : List Commit)
    (hk : 1 ≤ leadingRun config history) (hmore : leadingRun config history < history.length) :
    ∃ init anchor parent older,
      history = init ++ anchor :: parent :: older ∧
      history.takeWhile (isAutoCommit config) = init ++ [anchor] ∧
      history.drop (leadingRun config history) = parent :: older ∧
      init.length + 1 = leadingRun config history := by
  unfold leadingRun at *
  have hsplit := List.takeWhile_append_dropWhile (isAutoCommit config) history
  generalize hrun : history.takeWhile (isAutoCommit config) = run at *
  generalize hrest : history.dropWhile (isAutoCommit config) = rest at *
  rcases List.eq_nil_or_concat run with hnil | ⟨init, anchor, hconcat⟩
  · rw [hnil] at hk
    simp at hk
  · rw [List.concat_eq_append] at hconcat
    have hlen : history.length = run.length + rest.length := by
      rw [← hsplit, List.length_append]
    cases rest with
    | nil => simp at hlen; omega
    | cons parent older =>
      refine ⟨init, anchor, parent, older, ?_, hconcat, ?_, ?_⟩
      · rw [← hsplit, hconcat]
        simp
      · rw [← hsplit]
        exact List.drop_left _ _
      · rw [hconcat]
        simp

/-- When no marker commit lies after the leading run, the filter of
`findAutoCommits` keeps exactly that run. -/
theorem filter_eq_leading_run (config : Config) (history : List Commit)
    (hrest : ∀ c ∈ history.drop (leadingRun config history), isAutoCommit config c = false) :
    history.filter (isAutoCommit config) = history.takeWhile (isAutoCommit config) := by
  have hdw : history.dropWhile (isAutoCommit config)
      = history.drop (leadingRun config history) := by
    have h := List.drop_left (history.takeWhile (isAutoCommit config))
      (history.dropWhile (isAutoCommit config))
    rw [List.takeWhile_append_dropWhile] at h
    exact h.symm
  have h1 : (history.drop (leadingRun config history)).filter (isAutoCommit config) = [] := by
    rw [List.filter_eq_nil_iff]
    intro c hc
    simp [hrest c hc]
  have h2 : (history.takeWhile (isAutoCommit config)).filter (isAutoCommit config)
      = history.takeWhile (isAutoCommit config) :=
    List.filter_eq_self.mpr (fun a ha => List.mem_takeWhile_imp ha)
  conv_lhs => rw [← List.takeWhile_append_dropWhile (isAutoCommit config) history]
  rw [List.filter_append, hdw, h1, h2, List.append_nil]

/-- C1, counterexample: in the history `a` (marker), `d` (no marker), `e`
(marker), `f` (no marker) the leading run has one commit and is followed by
three more, and the final message is valid; yet the reset targets the parent
of `e`, not of `a`, and the history left is the new commit followed by `f`,
not by `d`, `e`, `f`: its length drops by 2, not by 0. -/
theorem squashAutoCommits_leading_run_counterexample :
    (gitClient "n").log (cleanRepo [("a", "WIP: a", "t3"), ("d", "docs(x): d", "t2"),
        ("e", "WIP: e", "t1"), ("f", "init", "t0")]).state
      = .ok [⟨"a", "WIP: a"⟩, ⟨"d", "docs(x): d"⟩, ⟨"e", "WIP: e"⟩, ⟨"f", "init"⟩] ∧
    leadingRun defaultConfig
      [⟨"a", "WIP: a"⟩, ⟨"d", "docs(x): d"⟩, ⟨"e", "WIP: e"⟩, ⟨"f", "init"⟩] = 1 ∧
    validateCommitMessage "feat(core): y" = .ok true ∧
    squashAutoCommits (gitClient "n") defaultConfig "feat(core): y"
        (cleanRepo [("a", "WIP: a", "t3"), ("d", "docs(x): d", "t2"),
          ("e", "WIP: e", "t1"), ("f", "init", "t0")])
      = (true, ⟨⟨linearHistory [("n", "feat(core): y", "t3"), ("f", "init", "t0")], "t3", true⟩,
          [.reset "--soft" "e^", .commit "feat(core): y"]⟩) ∧
    (gitClient "n").log (squashAutoCommits (gitClient "n") defaultConfig "feat(core): y"
        (cleanRepo [("a", "WIP: a", "t3"), ("d", "docs(x): d", "t2"),
          ("e", "WIP: e", "t1"), ("f", "init", "t0")])).2.state
      = .ok [⟨"n", "feat(core): y"⟩, ⟨"f", "init"⟩] ∧
    ([⟨"n", "feat(core): y"⟩, ⟨"f", "init"⟩] : List Commit)
      ≠ ⟨"n", "feat(core): y"⟩ ::
          ([⟨"a", "WIP: a"⟩, ⟨"d", "docs(x): d"⟩, ⟨"e", "WIP: e"⟩, ⟨"f", "init"⟩] :
            List Commit).drop 1 := by
  decide

/-- C1, amended: let the log be a history (newest first, distinct hashes) whose
maximal leading run of marker commits has `k >= 1` commits, is followed by at
least one more commit and holds every marker commit of the history, and let
the final message be grammar-valid.  Then `squashAutoCommits` sends the soft
reset to the parent of the `k`-th commit (the oldest of the run) and then the
commit of the final message.  When the client carries both out as on a branch
without merge (the reset succeeds and leaves the entries after that commit;
the commit succeeds and puts one commit bearing the final message on top),
it returns `true` and the history left is that new commit followed by the
original history without its first `k` commits: the length decreases by
`k - 1`. -/
theorem squashAutoCommits_spec {σ : Type} (V : Vcs σ) (config : Config)
    (msg newHash : String) (r : Repo σ) (history : List Commit) (anchor : Commit) (s1 s2 : σ)
    (hvalid : validateCommitMessage msg = .ok true)
    (hlog : V.log r.state = .ok history)
    (hnodup : (history.map Commit.hash).Nodup)
    (hk : 1 ≤ leadingRun config history)
    (hmore : leadingRun config history < history.length)
    (hrest : ∀ c ∈ history.drop (leadingRun config history), isAutoCommit config c = false)
    (hanchor : history[leadingRun config history - 1]? = some anchor)
    (hreset : V.reset r.state "--soft" (anchor.hash ++ "^") = (.ok (), s1))
    (hparent : V.log s1 = .ok (entriesAfter history anchor.hash))
    (hcommit : V.commit s1 msg = (.ok (), s2))
    (hnew : V.log s2 = .ok (⟨newHash, msg⟩ :: entriesAfter history anchor.hash)) :
    squashAutoCommits V config msg r
      = (true, ⟨s2, r.ops ++ [.reset "--soft" (anchor.hash ++ "^"), .commit msg]⟩) ∧
    (∃ parent older,
      history.drop (leadingRun config history) = parent :: older ∧
      V.log s1 = .ok (parent :: older)) ∧
    V.log (squashAutoCommits V config msg r).2.state
      = .ok (⟨newHash, msg⟩ :: history.drop (leadingRun config history)) ∧
    (history.drop (leadingRun config history)).length + 1 + (leadingRun config history - 1)
      = history.length := by
  obtain ⟨init, anchor', parent, older, hhist, hrun, hdrop, hlen⟩ :=
    history_split config history hk hmore
  have hsame : anchor' = anchor := by
    have hidx : leadingRun config history - 1 = init.length := by omega
    rw [hidx, hhist, List.getElem?_append_right (le_refl _)] at hanchor
    simpa using hanchor
  subst hsame
  have hfresh : ∀ c ∈ init, c.hash ≠ anchor'.hash := by
    rw [hhist, List.map_append, List.map_cons] at hnodup
    have hdisj := List.disjoint_of_nodup_append hnodup
    intro c hc heq
    exact hdisj (List.mem_map_of_mem _ hc) (heq ▸ List.mem_cons_self _ _)
  have hafter : entriesAfter history anchor'.hash
      = history.drop (leadingRun config history) := by
    rw [hdrop]
    conv_lhs => rw [hhist]
    exact entriesAfter_append init anchor' (parent :: older) hfresh
  have hauto : findAutoCommits V config r = init ++ [anchor'] := by
    unfold findAutoCommits Repo.log
    rw [hlog]
    exact (filter_eq_leading_run config history hrest).trans hrun
  have hsquash : squashAutoCommits V config msg r
      = (true, ⟨s2, r.ops ++ [.reset "--soft" (anchor'.hash ++ "^"), .commit msg]⟩) := by
    unfold squashAutoCommits
    simp [hvalid, hauto, Repo.reset, Repo.commit, hreset, hcommit]
  refine ⟨hsquash, ⟨parent, older, hdrop, ?_⟩, ?_, ?_⟩
  · rw [hparent, hafter, hdrop]
  · rw [hsquash]
    simp only
    rw [hnew, hafter]
  · rw [List.length_drop]
    omega

/-- Witness of the amended C1: the history `a`, `b`, `c` (markers), `d` resets
to the parent of `c` and leaves the new commit followed by `d`. -/
theorem squashAutoCommits_spec_witness :
    squashAutoCommits (gitClient "n") defaultConfig "feat(core): y"
        (cleanRepo [("a", "WIP: a", "t3"), ("b", "WIP: b", "t2"), ("c", "WIP: c", "t1"),
          ("d", "init", "t0")])
      = (true, ⟨⟨linearHistory [("n", "feat(core): y", "t3"), ("d", "init", "t0")], "t3", true⟩,
          [.reset "--soft" "c^", .commit "feat(core): y"]⟩) :=
  (squashAutoCommits_spec (gitClient "n") defaultConfig "feat(core): y" "n"
    (cleanRepo [("a", "WIP: a", "t3"), ("b", "WIP: b", "t2"), ("c", "WIP: c", "t1"),
      ("d", "init", "t0")])
    [⟨"a", "WIP: a"⟩, ⟨"b", "WIP: b"⟩, ⟨"c", "WIP: c"⟩, ⟨"d", "init"⟩] ⟨"c", "WIP: c"⟩
    ⟨linearHistory [("d", "init", "t0")], "t3", true⟩
    ⟨linearHistory [("n", "feat(core): y", "t3"), ("d", "init", "t0")], "t3", true⟩
    (by decide) (by decide) (by decide) (by decide) (by decide) (by decide) (by decide)
    (by decide) (by decide) (by decide) (by decide)).1

/-! ## The git repository outside these hypotheses -/

/-- When the squashed commits cancel out (`a` restores the tree of `f`), git
has nothing to commit after the soft reset: no commit is created, the history
left is `f` alone, and `squashAutoCommits` still returns `true`. -/
theorem squashAutoCommits_nothing_to_commit :
    squashAutoCommits (gitClient "n") defaultConfig "feat(core): y"
        (cleanRepo [("a", "WIP: a", "t0"), ("e", "WIP: e", "t1"), ("f", "init", "t0")])
      = (true, ⟨⟨linearHistory [("f", "init", "t0")], "t0", true⟩,
          [.reset "--soft" "e^", .commit "feat(core): y"]⟩) := by
  decide

/-- When the marker commit is a merge, the reset goes to its first parent and
the merged side leaves the history: four entries become three. -/
theorem squashAutoCommits_merge_at_tip :
    squashAutoCommits (gitClient "n") defaultConfig "feat(core): y"
        ⟨⟨[⟨"m", "WIP: merge", ["p", "x"], "t3"⟩, ⟨"x", "side", ["b"], "t2"⟩,
            ⟨"p", "main", ["b"], "t1"⟩, ⟨"b", "init", [], "t0"⟩], "t3", true⟩, []⟩
      = (true, ⟨⟨[⟨"n", "feat(core): y", ["p"], "t3"⟩, ⟨"p", "main", ["b"], "t1"⟩,
            ⟨"b", "init", [], "t0"⟩], "t3", true⟩,
          [.reset "--soft" "m^", .commit "feat(core): y"]⟩) := by
  decide

/-- When git refuses the commit (no identity), `squashAutoCommits` returns
`false` after the reset: the squashed commits are gone from the history and
their changes stay staged. -/
theorem squashAutoCommits_commit_refused :
    squashAutoCommits (gitClient "n") defaultConfig "feat(core): y"
        ⟨⟨linearHistory [("a", "WIP: a", "t1"), ("f", "init", "t0")], "t1", false⟩, []⟩
      = (false, ⟨⟨linearHistory [("f", "init", "t0")], "t1", false⟩,
          [.reset "--soft" "a^", .commit "feat(core): y"]⟩) := by
  decide

/-- A valid final message whose blank after the colon is a line break is logged
with the lines of its first paragraph joined. -/
theorem squashAutoCommits_message_rewritten :
    validateCommitMessage "feat(x):\ny" = .ok true ∧
    (gitClient "n").log (squashAutoCommits (gitClient "n") defaultConfig "feat(x):\ny"
        (cleanRepo [("a", "WIP: a", "t1"), ("f", "init", "t0")])).2.state
      = .ok [⟨"n", "feat(x): y"⟩, ⟨"f", "init"⟩] := by
  decide

end AutoCommit
